import Mathlib

/-!
Verification of the directory-generator core (`generate_dirs.py`).

The source walks a YAML-derived tree and materialises directories with
`pathlib.Path.mkdir(parents=True, exist_ok=True)`, recording
`str(path.resolve())` of every successfully created (or already existing)
directory, and finally renders a Markdown tree report.

Shallow embedding choices, matching the source (not the spec):
* A filesystem path is its `pathlib` parts list (`List String`), rooted at
  the filesystem root `/`.  Joining a raw name string follows
  `PurePosixPath.__truediv__`: an absolute name replaces the path, otherwise
  the name is split on `/`, dropping empty and `.` components.
  `Path.resolve()` (no symlinks in the model) collapses `..` components.
* The filesystem is a set (list without duplicates) of existing directories,
  stored in resolved form.  Whether a `mkdir` syscall for a not-yet-existing
  target raises is decided by an environment oracle `env : FsPath → Bool`
  (`true` = the call raises); an existing target always succeeds because of
  `exist_ok=True`.
* `created` models the Python set `self.created_dirs` (insertion order,
  no duplicates); `attempts` is the trace of `_create_dir` invocations,
  mirroring the per-call log records.
* Python exceptions escaping the walk are modelled by an `Option String`
  error component; the filesystem component persists across an exception,
  as the real disk does.
-/

namespace DirGen

/-- A filesystem path as its `pathlib` parts (segments after the root `/`). -/
abbrev FsPath := List String

/-- Whitespace for Python `str.strip()` (the ASCII part of Python's
whitespace set; the configs at issue use only these). -/
def isWsChar (c : Char) : Bool :=
  c == ' ' || c == '\t' || c == '\n' || c == '\r' || c == '\x0b' || c == '\x0c'

/-- Python `str.strip()`: drop leading and trailing whitespace. -/
def pyStrip (s : String) : String :=
  ⟨((s.data.dropWhile isWsChar).reverse.dropWhile isWsChar).reverse⟩

/-- Split a character list on `/` (the separator-splitting part of `pathlib`
path parsing). -/
def splitSlash : List Char → List (List Char)
  | [] => [[]]
  | c :: rest =>
    let r := splitSlash rest
    if c = '/' then [] :: r
    else
      match r with
      | h :: t => (c :: h) :: t
      | [] => [[c]]

/-- Split a raw name string into path components the way `pathlib` parses a
path string: split on `/`, drop empty components and `.` components. -/
def splitSegs (s : String) : List String :=
  ((splitSlash s.data).map (fun l => String.mk l)).filter
    (fun t => !(t == "" || t == "."))

/-- Does the raw string denote an absolute path? -/
def startsWithSlash (s : String) : Bool :=
  match s.data with
  | c :: _ => c == '/'
  | [] => false

/-- `p / s` for a raw string `s`, following `PurePosixPath.__truediv__`:
an absolute `s` replaces the whole path, otherwise the parsed components of
`s` are appended. -/
def pathJoin (p : FsPath) (s : String) : FsPath :=
  if startsWithSlash s then splitSegs s else p ++ splitSegs s

/-- `Path.resolve()` on a parts list (model without symlinks): collapse `..`
components; at the filesystem root, `..` stays at the root. -/
def resolveSegs (p : FsPath) : FsPath :=
  p.foldl (fun acc seg => if seg = ".." then acc.dropLast else acc ++ [seg]) []

/-- Python `"/".join(parts)`. -/
def joinSlash : List String → String
  | [] => ""
  | [s] => s
  | s :: rest => s ++ "/" ++ joinSlash rest

/-- `str(path)` for an absolute path given by its parts. -/
def pathStr (p : FsPath) : String :=
  "/" ++ joinSlash p

/-- Add a string to a set-as-list (Python `set.add`). -/
def insertStr (l : List String) (s : String) : List String :=
  if s ∈ l then l else l ++ [s]

/-- The non-empty ancestors of `p`, `p` included. -/
def prefixesOf (p : FsPath) : List FsPath :=
  (List.range p.length).map (fun i => p.take (i + 1))

/-- Effect of a successful `mkdir(parents=True)` on the set of existing
directories: the target and all its missing ancestors come into existence. -/
def addDirAll (dirs : List FsPath) (rp : FsPath) : List FsPath :=
  (prefixesOf rp).foldl (fun d q => if q ∈ d then d else d ++ [q]) dirs

/-- State threaded through the walk: the existing directories on disk
(resolved form), the `created_dirs` record (resolved absolute path strings),
and the trace of `_create_dir` invocations (the log). -/
structure FSState where
  dirs : List FsPath
  created : List String
  attempts : List FsPath
deriving Repr, DecidableEq

/-- `_create_dir(path)`: attempt `path.mkdir(parents=True, exist_ok=True)`;
on success record `str(path.resolve())` into `created_dirs` and return
`True`, on an exception return `False`.  An existing target (the filesystem
root included) succeeds via `exist_ok=True`; for a missing target the oracle
`env` decides whether the `mkdir` call raises. -/
def createDir (env : FsPath → Bool) (fs : FSState) (p : FsPath) : Bool × FSState :=
  let rp := resolveSegs p
  let fs0 : FSState := { fs with attempts := fs.attempts ++ [p] }
  if rp.isEmpty || rp ∈ fs0.dirs then
    (true, { fs0 with created := insertStr fs0.created (pathStr rp) })
  else if env rp then
    (false, fs0)
  else
    (true, { fs0 with dirs := addDirAll fs0.dirs rp,
                      created := insertStr fs0.created (pathStr rp) })

/-- A parsed YAML value, as far as `_process_node` distinguishes them. -/
inductive Yaml where
  | ystr (s : String)
  | yint (n : Int)
  | ybool (b : Bool)
  | ymap (entries : List (Yaml × Yaml))
  | ylist (items : List Yaml)
  | ynull

/-- `dir_name.strip()`: succeeds only on a string (otherwise Python raises
`AttributeError`, which nothing in `_process_node` catches). -/
def strip : Yaml → Except String String
  | .ystr s => .ok (pyStrip s)
  | _ => .error "AttributeError"

mutual

/-- `_process_node(node, current_path)`: dispatch on the node's runtime type;
mappings recurse per entry behind a successful `_create_dir`, sequences
attempt each entry, `None` and unsupported scalars are skipped. -/
def processNode (env : FsPath → Bool) : Yaml → FsPath → FSState → FSState × Option String
  | .ymap entries, cur, fs => processMap env entries cur fs
  | .ylist items, cur, fs => processList env items cur fs
  | .ynull, _, fs => (fs, none)
  | .ystr _, _, fs => (fs, none)
  | .yint _, _, fs => (fs, none)
  | .ybool _, _, fs => (fs, none)

/-- The `dict` arm of `_process_node`: for each `(dir_name, children)` pair in
mapping order, `new_path = current_path / dir_name.strip()`; recurse into the
children only when `_create_dir(new_path)` returns `True`. -/
def processMap (env : FsPath → Bool) :
    List (Yaml × Yaml) → FsPath → FSState → FSState × Option String
  | [], _, fs => (fs, none)
  | (k, child) :: rest, cur, fs =>
    match strip k with
    | .error e => (fs, some e)
    | .ok name =>
      let np := pathJoin cur name
      let r := createDir env fs np
      if r.1 then
        match processNode env child np r.2 with
        | (fs2, some e) => (fs2, some e)
        | (fs2, none) => processMap env rest cur fs2
      else
        processMap env rest cur r.2

/-- The `list` arm of `_process_node`: attempt `_create_dir` for every entry
in sequence order, ignoring the returned boolean. -/
def processList (env : FsPath → Bool) :
    List Yaml → FsPath → FSState → FSState × Option String
  | [], _, fs => (fs, none)
  | item :: rest, cur, fs =>
    match strip item with
    | .error e => (fs, some e)
    | .ok name =>
      let r := createDir env fs (pathJoin cur name)
      processList env rest cur r.2

end

/-- Lexicographic code-point comparison of character lists (Python string
comparison). -/
def listLeChar : List Char → List Char → Bool
  | [], _ => true
  | _ :: _, [] => false
  | a :: as, b :: bs =>
    if a.toNat < b.toNat then true
    else if b.toNat < a.toNat then false
    else listLeChar as bs

/-- Python string order (code-point lexicographic), as a boolean. -/
def strLe (a b : String) : Bool := listLeChar a.data b.data

/-- Python `sorted` on a list of strings. -/
def sortStrings (l : List String) : List String :=
  l.mergeSort strLe

/-- One line of the README directory tree, for one recorded path string.
`Path(dir_path).relative_to(self.root)` succeeds exactly when `root` is a
parts-wise ancestor (`ValueError` otherwise, caught and turned into the
absolute-form fallback line); a successful relative path that is empty
(`dir_path` equal to the root) makes `rel_path.parts[-1]` raise an
uncaught `IndexError`. -/
def renderLine (root : FsPath) (dirPath : String) : Except String String :=
  let segs := splitSegs dirPath
  if root.isPrefixOf segs then
    let parts := segs.drop root.length
    if parts.isEmpty then
      .error "IndexError"
    else
      .ok (String.join (List.replicate (parts.length - 1) "    ") ++ "- "
            ++ parts.getLastD "")
  else
    .ok ("- " ++ dirPath)

/-- Render the lines for a list of recorded paths in order; the first
uncaught exception escapes the loop. -/
def renderLines (root : FsPath) : List String → Except String (List String)
  | [] => .ok []
  | s :: rest =>
    match renderLine root s with
    | .error e => .error e
    | .ok line =>
      match renderLines root rest with
      | .error e => .error e
      | .ok ls => .ok (line :: ls)

/-- The directory-tree block of `generate_readme`: one rendered line per
recorded path, in sorted order; the first uncaught exception escapes. -/
def buildTreeLines (root : FsPath) (created : List String) :
    Except String (List String) :=
  renderLines root (sortStrings created)

/-- `generate()`: run the walk from the root, then build the README
(an exception escaping either is re-raised), then return the sorted
`created_dirs`.  The returned state is the filesystem after the run. -/
def generate (env : FsPath → Bool) (root : FsPath) (tree : Yaml)
    (dirs0 : List FsPath) : FSState × Except String (List String) :=
  let r := processNode env tree root ⟨dirs0, [], []⟩
  match r.2 with
  | some err => (r.1, .error err)
  | none =>
    match buildTreeLines root r.1.created with
    | .error err => (r.1, .error err)
    | .ok _ => (r.1, .ok (sortStrings r.1.created))

/-- Outcome of reading and parsing the configuration source:
`none` when the file cannot be read or the text cannot be parsed as YAML,
otherwise the parsed document. -/
abbrev ParseOutcome := Option Yaml

/-- Python `parsed["directory_structure"]` subscription: a string-keyed
lookup that works only on a mapping. -/
def lookupKey (key : String) : List (Yaml × Yaml) → Option Yaml
  | [] => none
  | (Yaml.ystr s, v) :: rest =>
      if s = key then some v else lookupKey key rest
  | _ :: rest => lookupKey key rest

/-- `_load_config(path)`: re-raise when reading or parsing failed; subscript
the parsed document with `directory_structure` (`TypeError` on a non-mapping
document, `KeyError` when the key is absent) and return the value. -/
def loadConfig (src : ParseOutcome) : Except String Yaml :=
  match src with
  | none => .error "ReadOrParseError"
  | some doc =>
    match doc with
    | .ymap entries =>
      match lookupKey "directory_structure" entries with
      | some v => .ok v
      | none => .error "KeyError"
    | _ => .error "TypeError"

/-! ### Basic lemmas about `_create_dir` -/

theorem createDir_exist (env : FsPath → Bool) (fs : FSState) (p : FsPath)
    (h : resolveSegs p = [] ∨ resolveSegs p ∈ fs.dirs) :
    createDir env fs p =
      (true, { fs with attempts := fs.attempts ++ [p],
                       created := insertStr fs.created (pathStr (resolveSegs p)) }) := by
  unfold createDir
  rcases h with h | h <;> simp [h]

theorem createDir_fail (env : FsPath → Bool) (fs : FSState) (p : FsPath)
    (h1 : resolveSegs p ≠ []) (h2 : resolveSegs p ∉ fs.dirs)
    (h3 : env (resolveSegs p) = true) :
    createDir env fs p = (false, { fs with attempts := fs.attempts ++ [p] }) := by
  unfold createDir
  simp [h1, h2, h3, List.isEmpty_iff]

theorem createDir_new (env : FsPath → Bool) (fs : FSState) (p : FsPath)
    (h1 : resolveSegs p ≠ []) (h2 : resolveSegs p ∉ fs.dirs)
    (h3 : env (resolveSegs p) = false) :
    createDir env fs p =
      (true, { fs with attempts := fs.attempts ++ [p],
                       dirs := addDirAll fs.dirs (resolveSegs p),
                       created := insertStr fs.created (pathStr (resolveSegs p)) }) := by
  unfold createDir
  simp [h1, h2, h3, List.isEmpty_iff]

theorem createDir_attempts (env : FsPath → Bool) (fs : FSState) (p : FsPath) :
    ((createDir env fs p).2).attempts = fs.attempts ++ [p] := by
  unfold createDir
  dsimp only
  split <;> [simp; (split <;> simp)]

theorem createDir_false_frame (env : FsPath → Bool) (fs : FSState) (p : FsPath)
    (h : (createDir env fs p).1 = false) :
    (createDir env fs p).2 = { fs with attempts := fs.attempts ++ [p] } := by
  by_cases hc : resolveSegs p = [] ∨ resolveSegs p ∈ fs.dirs
  · rw [createDir_exist env fs p hc] at h
    simp at h
  · push_neg at hc
    obtain ⟨h1, h2⟩ := hc
    cases h3 : env (resolveSegs p) with
    | true => rw [createDir_fail env fs p h1 h2 h3]
    | false =>
      rw [createDir_new env fs p h1 h2 h3] at h
      simp at h

theorem createDir_true_created (env : FsPath → Bool) (fs : FSState) (p : FsPath)
    (h : (createDir env fs p).1 = true) :
    (createDir env fs p).2.created = insertStr fs.created (pathStr (resolveSegs p)) := by
  by_cases hc : resolveSegs p = [] ∨ resolveSegs p ∈ fs.dirs
  · rw [createDir_exist env fs p hc]
  · push_neg at hc
    obtain ⟨h1, h2⟩ := hc
    cases h3 : env (resolveSegs p) with
    | true =>
      rw [createDir_fail env fs p h1 h2 h3] at h
      simp at h
    | false => rw [createDir_new env fs p h1 h2 h3]

theorem mem_insertStr_self (l : List String) (s : String) : s ∈ insertStr l s := by
  unfold insertStr
  split <;> simp [*]

theorem mem_insertStr (l : List String) (s t : String) (h : t ∈ l) :
    t ∈ insertStr l s := by
  unfold insertStr
  split <;> simp [h]

theorem mem_foldl_insert (l : List FsPath) (d : List FsPath) (q : FsPath) :
    (q ∈ l.foldl (fun d x => if x ∈ d then d else d ++ [x]) d) ↔ q ∈ d ∨ q ∈ l := by
  induction l generalizing d with
  | nil => simp
  | cons x xs ih =>
    simp only [List.foldl_cons]
    by_cases hx : x ∈ d
    · rw [if_pos hx, ih]
      simp only [List.mem_cons]
      constructor
      · rintro (h | h) <;> tauto
      · rintro (h | h | h)
        · exact Or.inl h
        · subst h; exact Or.inl hx
        · exact Or.inr h
    · rw [if_neg hx, ih]
      simp only [List.mem_append, List.mem_cons, List.mem_singleton]
      tauto

theorem mem_addDirAll (dirs : List FsPath) (rp q : FsPath) :
    q ∈ addDirAll dirs rp ↔ q ∈ dirs ∨ q ∈ prefixesOf rp := by
  unfold addDirAll
  exact mem_foldl_insert _ _ _

theorem createDir_dirs_mono (env : FsPath → Bool) (fs : FSState) (p q : FsPath)
    (h : q ∈ fs.dirs) : q ∈ (createDir env fs p).2.dirs := by
  unfold createDir
  dsimp only
  split
  · simpa using h
  · split
    · simpa using h
    · simp only [mem_addDirAll]
      exact Or.inl h

theorem createDir_mem_dirs_succeeds (env : FsPath → Bool) (fs : FSState) (p : FsPath)
    (h : resolveSegs p ∈ fs.dirs) :
    (createDir env fs p).1 = true ∧ (createDir env fs p).2.dirs = fs.dirs := by
  rw [createDir_exist env fs p (Or.inr h)]
  exact ⟨rfl, rfl⟩

/-! ### One-step unfolding lemmas for the walk -/

theorem processMap_cons (env : FsPath → Bool) (k c : Yaml)
    (rest : List (Yaml × Yaml)) (cur : FsPath) (fs : FSState) (name : String)
    (hk : strip k = .ok name) :
    processMap env ((k, c) :: rest) cur fs =
      (if (createDir env fs (pathJoin cur name)).1 then
        match processNode env c (pathJoin cur name)
            (createDir env fs (pathJoin cur name)).2 with
        | (fs2, some e) => (fs2, some e)
        | (fs2, none) => processMap env rest cur fs2
      else
        processMap env rest cur (createDir env fs (pathJoin cur name)).2) := by
  rw [processMap, hk]

theorem processMap_cons_err (env : FsPath → Bool) (k c : Yaml)
    (rest : List (Yaml × Yaml)) (cur : FsPath) (fs : FSState) (e : String)
    (hk : strip k = .error e) :
    processMap env ((k, c) :: rest) cur fs = (fs, some e) := by
  rw [processMap, hk]

theorem processList_cons (env : FsPath → Bool) (item : Yaml)
    (rest : List Yaml) (cur : FsPath) (fs : FSState) (name : String)
    (hk : strip item = .ok name) :
    processList env (item :: rest) cur fs =
      processList env rest cur (createDir env fs (pathJoin cur name)).2 := by
  rw [processList, hk]

theorem processList_cons_err (env : FsPath → Bool) (item : Yaml)
    (rest : List Yaml) (cur : FsPath) (fs : FSState) (e : String)
    (hk : strip item = .error e) :
    processList env (item :: rest) cur fs = (fs, some e) := by
  rw [processList, hk]

/-- A leaf list of plain string names attempts exactly the joined trimmed
names, in sequence order, and raises nothing. -/
theorem processList_strings (env : FsPath → Bool) (names : List String) :
    ∀ (cur : FsPath) (fs : FSState),
      (processList env (names.map Yaml.ystr) cur fs).2 = none
      ∧ (processList env (names.map Yaml.ystr) cur fs).1.attempts
          = fs.attempts ++ names.map (fun n => pathJoin cur (pyStrip n)) := by
  induction names with
  | nil => intro cur fs; simp [processList]
  | cons n ns ih =>
    intro cur fs
    rw [List.map_cons, processList_cons env (Yaml.ystr n) _ cur fs (pyStrip n) rfl]
    refine ⟨(ih cur _).1, ?_⟩
    rw [(ih cur _).2, createDir_attempts]
    simp

/-! ### Claim theorems -/

/-- C4: `_create_dir` is a total boolean-returning function (the `except`
clause turns every filesystem error into `False` for that one directory);
exactly on success the resolved absolute string of the path is added to the
`created_dirs` record, and on failure both the record and the filesystem are
unchanged. -/
theorem c4_createDir_contract (env : FsPath → Bool) (fs : FSState) (p : FsPath) :
    ((createDir env fs p).1 = true →
        (createDir env fs p).2.created
            = insertStr fs.created (pathStr (resolveSegs p))
        ∧ pathStr (resolveSegs p) ∈ (createDir env fs p).2.created)
    ∧ ((createDir env fs p).1 = false →
        (createDir env fs p).2.created = fs.created
        ∧ (createDir env fs p).2.dirs = fs.dirs) := by
  constructor
  · intro h
    rw [createDir_true_created env fs p h]
    exact ⟨rfl, mem_insertStr_self _ _⟩
  · intro h
    rw [createDir_false_frame env fs p h]
    exact ⟨rfl, rfl⟩

/-- C4 witness: the contract evaluated on a concrete success. -/
theorem c4_createDir_contract_witness :
    (createDir (fun _ => false) ⟨[], [], []⟩ ["R", "a"]).1 = true
    ∧ ((createDir (fun _ => false) ⟨[], [], []⟩ ["R", "a"]).2.created
          = insertStr [] (pathStr (resolveSegs ["R", "a"]))
        ∧ pathStr (resolveSegs ["R", "a"])
            ∈ (createDir (fun _ => false) ⟨[], [], []⟩ ["R", "a"]).2.created) :=
  ⟨by decide,
   (c4_createDir_contract (fun _ => false) ⟨[], [], []⟩ ["R", "a"]).1 (by decide)⟩

/-- C1: for a Branch entry `(name, child)`, `_create_dir` is attempted at
`current_path / name.strip()`, and the walk recurses into `child` exactly
when that call succeeds; when it fails, processing continues directly with
the remaining sibling entries from a state in which nothing was created
(`created_dirs` and the filesystem are unchanged and the only new log entry
is the failed path itself), so the failed entry's subtree is never attempted
and nothing below the failed path is created by it. -/
theorem c1_branch_short_circuit (env : FsPath → Bool) (k c : Yaml)
    (rest : List (Yaml × Yaml)) (cur : FsPath) (fs : FSState) (name : String)
    (hk : strip k = .ok name) :
    ((createDir env fs (pathJoin cur name)).1 = true →
        processMap env ((k, c) :: rest) cur fs =
          (match processNode env c (pathJoin cur name)
              (createDir env fs (pathJoin cur name)).2 with
           | (fs2, some e) => (fs2, some e)
           | (fs2, none) => processMap env rest cur fs2))
    ∧ ((createDir env fs (pathJoin cur name)).1 = false →
        processMap env ((k, c) :: rest) cur fs =
          processMap env rest cur (createDir env fs (pathJoin cur name)).2
        ∧ (createDir env fs (pathJoin cur name)).2.created = fs.created
        ∧ (createDir env fs (pathJoin cur name)).2.dirs = fs.dirs
        ∧ (createDir env fs (pathJoin cur name)).2.attempts
            = fs.attempts ++ [pathJoin cur name]) := by
  constructor
  · intro h
    rw [processMap_cons env k c rest cur fs name hk, if_pos h]
  · intro h
    refine ⟨?_, (c4_createDir_contract env fs _).2 h |>.1,
      (c4_createDir_contract env fs _).2 h |>.2, createDir_attempts env fs _⟩
    rw [processMap_cons env k c rest cur fs name hk, if_neg (by simp [h])]

/-- C1 witness: the failing branch evaluated concretely (an environment in
which every mkdir raises). -/
theorem c1_branch_short_circuit_witness :
    strip (Yaml.ystr "a") = .ok "a"
    ∧ ((createDir (fun _ => true) ⟨[], [], []⟩ (pathJoin ["R"] "a")).1 = false →
        processMap (fun _ => true) [(Yaml.ystr "a", Yaml.ymap [(Yaml.ystr "b", Yaml.ynull)])]
            ["R"] ⟨[], [], []⟩ =
          processMap (fun _ => true) [] ["R"]
            (createDir (fun _ => true) ⟨[], [], []⟩ (pathJoin ["R"] "a")).2
        ∧ (createDir (fun _ => true) ⟨[], [], []⟩ (pathJoin ["R"] "a")).2.created = []
        ∧ (createDir (fun _ => true) ⟨[], [], []⟩ (pathJoin ["R"] "a")).2.dirs = []
        ∧ (createDir (fun _ => true) ⟨[], [], []⟩ (pathJoin ["R"] "a")).2.attempts
            = [] ++ [pathJoin ["R"] "a"]) :=
  ⟨rfl, (c1_branch_short_circuit (fun _ => true) (Yaml.ystr "a")
      (Yaml.ymap [(Yaml.ystr "b", Yaml.ynull)]) [] ["R"] ⟨[], [], []⟩ "a" rfl).2⟩

/-- C3: for a Leaf-list, every entry is attempted at
`current_path / name.strip()` in sequence order; the continuation after an
entry is the same state-threaded processing of the remaining entries whether
that entry's `_create_dir` succeeded or failed, so one entry failing never
prevents another entry of the same list from being attempted. -/
theorem c3_list_independence (env : FsPath → Bool) :
    (∀ (item : Yaml) (rest : List Yaml) (cur : FsPath) (fs : FSState)
        (name : String), strip item = .ok name →
      processList env (item :: rest) cur fs
        = processList env rest cur (createDir env fs (pathJoin cur name)).2)
    ∧ (∀ (names : List String) (cur : FsPath) (fs : FSState),
        (processList env (names.map Yaml.ystr) cur fs).2 = none
        ∧ (processList env (names.map Yaml.ystr) cur fs).1.attempts
            = fs.attempts ++ names.map (fun n => pathJoin cur (pyStrip n))) :=
  ⟨fun item rest cur fs name hk => processList_cons env item rest cur fs name hk,
   fun names cur fs => processList_strings env names cur fs⟩

/-- C3 witness: a two-element list in which the first entry fails and the
second is still attempted, evaluated concretely. -/
theorem c3_list_independence_witness :
    strip (Yaml.ystr "a") = .ok "a"
    ∧ processList (fun p => p == ["R", "a"]) [Yaml.ystr "a", Yaml.ystr "b"] ["R"] ⟨[], [], []⟩
        = processList (fun p => p == ["R", "a"]) [Yaml.ystr "b"] ["R"]
            (createDir (fun p => p == ["R", "a"]) ⟨[], [], []⟩ (pathJoin ["R"] "a")).2
    ∧ (processList (fun p => p == ["R", "a"])
          ((["a", "b"].map Yaml.ystr)) ["R"] ⟨[], [], []⟩).1.attempts
        = [["R", "a"], ["R", "b"]] :=
  ⟨rfl,
   (c3_list_independence (fun p => p == ["R", "a"])).1 (Yaml.ystr "a") [Yaml.ystr "b"]
      ["R"] ⟨[], [], []⟩ "a" rfl,
   by
    rw [((c3_list_independence (fun p => p == ["R", "a"])).2 ["a", "b"] ["R"] ⟨[], [], []⟩).2]
    decide⟩

theorem pathJoin_empty (cur : FsPath) : pathJoin cur "" = cur := by
  have h1 : startsWithSlash "" = false := rfl
  have h2 : splitSegs "" = [] := rfl
  simp [pathJoin, h1, h2]

/-- C8 counterexample: the claim asserts unconditionally that for a
whitespace-only name the current directory ends up recorded as created; with
an environment in which the mkdir call for the current path raises, nothing
is recorded. -/
theorem c8_cex :
    pyStrip "  " = ""
    ∧ (processMap (fun _ => true) [(Yaml.ystr "  ", Yaml.ynull)] ["R"]
        ⟨[], [], []⟩).1.created = []
    ∧ pathStr (resolveSegs ["R"]) = "/R" := by decide

/-- C8 (amended): a Branch or Leaf-list entry whose name strips to the empty
string joins to `currentPath` itself (`pathlib` drops empty components), so
`_create_dir` is invoked on the current path; when that call succeeds the
resolved current path is recorded in `created_dirs` and the Branch child is
processed at the same path (no new level); when it fails the record is
unchanged and the Branch child is skipped. -/
theorem c8_whitespace_name (env : FsPath → Bool) (w : String) (c : Yaml)
    (rest : List (Yaml × Yaml)) (items : List Yaml) (cur : FsPath) (fs : FSState)
    (hw : pyStrip w = "") :
    pathJoin cur (pyStrip w) = cur
    ∧ processMap env ((Yaml.ystr w, c) :: rest) cur fs =
        (if (createDir env fs cur).1 then
          match processNode env c cur (createDir env fs cur).2 with
          | (fs2, some e) => (fs2, some e)
          | (fs2, none) => processMap env rest cur fs2
        else processMap env rest cur (createDir env fs cur).2)
    ∧ ((createDir env fs cur).1 = true →
        pathStr (resolveSegs cur) ∈ (createDir env fs cur).2.created)
    ∧ ((createDir env fs cur).1 = false →
        (createDir env fs cur).2.created = fs.created)
    ∧ processList env (Yaml.ystr w :: items) cur fs
        = processList env items cur (createDir env fs cur).2 := by
  have hjoin : pathJoin cur (pyStrip w) = cur := by rw [hw, pathJoin_empty]
  refine ⟨hjoin, ?_, ?_, ?_, ?_⟩
  · have h := processMap_cons env (Yaml.ystr w) c rest cur fs (pyStrip w) rfl
    rw [hjoin] at h
    exact h
  · intro h
    rw [createDir_true_created env fs cur h]
    exact mem_insertStr_self _ _
  · intro h
    rw [createDir_false_frame env fs cur h]
  · have h := processList_cons env (Yaml.ystr w) items cur fs (pyStrip w) rfl
    rw [hjoin] at h
    exact h

/-- C8 witness: the amended claim evaluated at a concrete whitespace name in
an environment where creation succeeds. -/
theorem c8_whitespace_name_witness :
    pyStrip "  " = ""
    ∧ (pathJoin ["R"] (pyStrip "  ") = ["R"]
      ∧ processMap (fun _ => false) [(Yaml.ystr "  ", Yaml.ynull)] ["R"] ⟨[], [], []⟩ =
          (if (createDir (fun _ => false) ⟨[], [], []⟩ ["R"]).1 then
            match processNode (fun _ => false) Yaml.ynull ["R"]
                (createDir (fun _ => false) ⟨[], [], []⟩ ["R"]).2 with
            | (fs2, some e) => (fs2, some e)
            | (fs2, none) => processMap (fun _ => false) [] ["R"] fs2
          else processMap (fun _ => false) [] ["R"]
              (createDir (fun _ => false) ⟨[], [], []⟩ ["R"]).2)
      ∧ ((createDir (fun _ => false) ⟨[], [], []⟩ ["R"]).1 = true →
          pathStr (resolveSegs ["R"])
            ∈ (createDir (fun _ => false) ⟨[], [], []⟩ ["R"]).2.created)
      ∧ ((createDir (fun _ => false) ⟨[], [], []⟩ ["R"]).1 = false →
          (createDir (fun _ => false) ⟨[], [], []⟩ ["R"]).2.created = [])
      ∧ processList (fun _ => false) [Yaml.ystr "  "] ["R"] ⟨[], [], []⟩
          = processList (fun _ => false) [] ["R"]
              (createDir (fun _ => false) ⟨[], [], []⟩ ["R"]).2) :=
  ⟨rfl, c8_whitespace_name (fun _ => false) "  " Yaml.ynull [] [] ["R"] ⟨[], [], []⟩ rfl⟩

/-- C6: `_load_config` raises exactly when the source could not be read or
parsed, or when the parsed document does not provide the top-level
`directory_structure` key (a non-mapping document has no keys at all); in
every other case it returns that key's value unchanged. -/
theorem c6_load_config :
    (∃ e, loadConfig none = .error e)
    ∧ (∀ entries v, lookupKey "directory_structure" entries = some v →
        loadConfig (some (.ymap entries)) = .ok v)
    ∧ (∀ entries, lookupKey "directory_structure" entries = none →
        ∃ e, loadConfig (some (.ymap entries)) = .error e)
    ∧ (∀ doc, (∀ entries, doc ≠ .ymap entries) →
        ∃ e, loadConfig (some doc) = .error e) := by
  refine ⟨⟨_, rfl⟩, ?_, ?_, ?_⟩
  · intro entries v h
    simp [loadConfig, h]
  · intro entries h
    exact ⟨"KeyError", by simp [loadConfig, h]⟩
  · intro doc h
    cases doc with
    | ymap es => exact absurd rfl (h es)
    | ystr s => exact ⟨_, rfl⟩
    | yint n => exact ⟨_, rfl⟩
    | ybool b => exact ⟨_, rfl⟩
    | ylist l => exact ⟨_, rfl⟩
    | ynull => exact ⟨_, rfl⟩

/-- C6 witness: a present key returns its value; a missing key errors. -/
theorem c6_load_config_witness :
    lookupKey "directory_structure" [(Yaml.ystr "directory_structure", Yaml.ynull)]
        = some Yaml.ynull
    ∧ loadConfig (some (.ymap [(Yaml.ystr "directory_structure", Yaml.ynull)]))
        = .ok Yaml.ynull
    ∧ (∃ e, loadConfig (some (.ymap [])) = .error e) :=
  ⟨rfl,
   c6_load_config.2.1 [(Yaml.ystr "directory_structure", Yaml.ynull)] Yaml.ynull rfl,
   c6_load_config.2.2.1 [] rfl⟩

/-- C9 counterexample: the claim quantifies over every tree containing a
non-string name, but a non-string key below a branch whose directory
creation fails is short-circuited away and never reached, so this run
completes without raising (it returns an empty sorted list). -/
theorem c9_cex :
    (generate (fun p => p == ["R", "a"]) ["R"]
        (Yaml.ymap [(Yaml.ystr "a", Yaml.ymap [(Yaml.yint 1, Yaml.ynull)])]) []).2
      = .ok ([] : List String) := by
  have h : processNode (fun p => p == ["R", "a"])
      (Yaml.ymap [(Yaml.ystr "a", Yaml.ymap [(Yaml.yint 1, Yaml.ynull)])]) ["R"]
      ⟨[], [], []⟩ = (⟨[], [], [["R", "a"]]⟩, none) := by decide
  simp [generate, h, buildTreeLines, sortStrings, List.mergeSort]
  rfl

/-- C9 (amended): when the walk actually reaches a Branch key or Leaf-list
entry that is not a string, the `strip` call raises an `AttributeError` that
escapes `_process_node` immediately (the remaining siblings are not
processed), and `generate` re-raises any error escaping the walk, aborting
the run. -/
theorem c9_nonstring_abort (env : FsPath → Bool) (k : Yaml) (e : String)
    (hk : strip k = .error e) :
    (∀ (c : Yaml) (rest : List (Yaml × Yaml)) (cur : FsPath) (fs : FSState),
        processMap env ((k, c) :: rest) cur fs = (fs, some e))
    ∧ (∀ (items : List Yaml) (cur : FsPath) (fs : FSState),
        processList env (k :: items) cur fs = (fs, some e))
    ∧ (∀ (root : FsPath) (tree : Yaml) (dirs0 : List FsPath) (fs' : FSState)
          (err : String),
        processNode env tree root ⟨dirs0, [], []⟩ = (fs', some err) →
        (generate env root tree dirs0).2 = Except.error err) := by
  refine ⟨?_, ?_, ?_⟩
  · intro c rest cur fs
    exact processMap_cons_err env k c rest cur fs e hk
  · intro items cur fs
    exact processList_cons_err env k items cur fs e hk
  · intro root tree dirs0 fs' err h
    simp [generate, h]

/-- C9 witness: an integer key at the root is reached and aborts the run. -/
theorem c9_nonstring_abort_witness :
    strip (Yaml.yint 1) = .error "AttributeError"
    ∧ processMap (fun _ => false) [(Yaml.yint 1, Yaml.ynull)] ["R"] ⟨[], [], []⟩
        = (⟨[], [], []⟩, some "AttributeError")
    ∧ (generate (fun _ => false) ["R"] (Yaml.ymap [(Yaml.yint 1, Yaml.ynull)]) []).2
        = Except.error "AttributeError" :=
  ⟨rfl,
   (c9_nonstring_abort (fun _ => false) (Yaml.yint 1) "AttributeError" rfl).1
      Yaml.ynull [] ["R"] ⟨[], [], []⟩,
   (c9_nonstring_abort (fun _ => false) (Yaml.yint 1) "AttributeError" rfl).2.2
      ["R"] (Yaml.ymap [(Yaml.yint 1, Yaml.ynull)]) [] ⟨[], [], []⟩
      "AttributeError" (by decide)⟩

/-! ### Order facts about the Python string comparison -/

theorem listLeChar_total : ∀ xs ys : List Char,
    (listLeChar xs ys || listLeChar ys xs) = true := by
  intro xs
  induction xs with
  | nil => intro ys; simp [listLeChar]
  | cons a as ih =>
    intro ys
    cases ys with
    | nil => simp [listLeChar]
    | cons b bs =>
      simp only [listLeChar]
      by_cases h1 : a.toNat < b.toNat
      · simp [h1]
      · by_cases h2 : b.toNat < a.toNat
        · simp [h1, h2]
        · simp only [h1, h2, if_false, if_true, if_neg, if_pos]
          simpa using ih bs

theorem listLeChar_trans : ∀ xs ys zs : List Char,
    listLeChar xs ys = true → listLeChar ys zs = true → listLeChar xs zs = true := by
  intro xs
  induction xs with
  | nil => intro ys zs _ _; simp [listLeChar]
  | cons a as ih =>
    intro ys zs h1 h2
    cases ys with
    | nil => simp [listLeChar] at h1
    | cons b bs =>
      cases zs with
      | nil => simp [listLeChar] at h2
      | cons c cs =>
        simp only [listLeChar] at h1 h2 ⊢
        split_ifs at h1 h2 ⊢ <;>
          first
          | rfl
          | omega
          | exact ih bs cs h1 h2

theorem strLe_trans : ∀ a b c : String, strLe a b → strLe b c → strLe a c := by
  intro a b c h1 h2
  exact listLeChar_trans a.data b.data c.data h1 h2

theorem strLe_total : ∀ a b : String, strLe a b || strLe b a := by
  intro a b
  exact listLeChar_total a.data b.data

/-! ### Report rendering -/

theorem renderLines_ok (root : FsPath) :
    ∀ l : List String, (∀ t ∈ l, ∃ y, renderLine root t = Except.ok y) →
      ∃ lines, renderLines root l = Except.ok lines
        ∧ lines.length = l.length := by
  intro l
  induction l with
  | nil => intro _; exact ⟨[], rfl, rfl⟩
  | cons x xs ih =>
    intro h
    obtain ⟨y, hy⟩ := h x (List.mem_cons_self x xs)
    obtain ⟨lines, hl, hlen⟩ := ih (fun t ht => h t (List.mem_cons_of_mem x ht))
    exact ⟨y :: lines, by simp [renderLines, hy, hl], by simp [hlen]⟩

unseal List.merge List.mergeSort in
/-- C7 counterexample: the claim says report generation cannot fail, but a
recorded path equal to the root (reachable through a `..` name component,
here `a/..`, which `resolve()` collapses back to the root) makes
`rel_path.parts[-1]` raise an uncaught `IndexError`, which `generate`
re-raises. -/
theorem c7_cex :
    (processNode (fun _ => false)
        (Yaml.ymap [(Yaml.ystr "a", Yaml.ymap [(Yaml.ystr "..", Yaml.ynull)])]) ["R"]
        ⟨[], [], []⟩).1.created = ["/R/a", "/R"]
    ∧ (generate (fun _ => false) ["R"]
        (Yaml.ymap [(Yaml.ystr "a", Yaml.ymap [(Yaml.ystr "..", Yaml.ynull)])]) []).2
      = .error "IndexError" :=
  ⟨by decide, rfl⟩

/-- C7 (amended): every recorded path whose parts are not exactly the root's
is rendered on one line — with indentation `4 * (depth - 1)` and the final
path segment as label when the root is a parts-wise ancestor, and as the
full absolute string otherwise (the `ValueError` fallback) — so the report
has one line per recorded path; a recorded path equal to the root, however,
makes report generation raise an `IndexError`. -/
theorem c7_report_rendering (root : FsPath) :
    (∀ s, root.isPrefixOf (splitSegs s) = false →
        renderLine root s = .ok ("- " ++ s))
    ∧ (∀ s, root.isPrefixOf (splitSegs s) = true →
        root.length < (splitSegs s).length →
        renderLine root s =
          .ok (String.join
                 (List.replicate ((splitSegs s).length - root.length - 1) "    ")
               ++ "- " ++ ((splitSegs s).drop root.length).getLastD ""))
    ∧ (∀ s, root.isPrefixOf (splitSegs s) = true →
        (splitSegs s).length = root.length →
        renderLine root s = .error "IndexError")
    ∧ (∀ created : List String,
        (∀ t ∈ created, ¬(root.isPrefixOf (splitSegs t) = true
            ∧ (splitSegs t).length = root.length)) →
        ∃ lines, buildTreeLines root created = .ok lines
          ∧ lines.length = created.length) := by
  have harm : ∀ s, root.isPrefixOf (splitSegs s) = true →
      root.length < (splitSegs s).length →
      renderLine root s =
        .ok (String.join
               (List.replicate ((splitSegs s).length - root.length - 1) "    ")
             ++ "- " ++ ((splitSegs s).drop root.length).getLastD "") := by
    intro s hp hlt
    have hne : (splitSegs s).drop root.length ≠ [] := by
      intro hcon
      have := congrArg List.length hcon
      simp [List.length_drop] at this
      omega
    have hie : ((splitSegs s).drop root.length).isEmpty = false := by
      simpa [List.isEmpty_iff] using hne
    simp [renderLine, hp, hie, List.length_drop]
  refine ⟨?_, harm, ?_, ?_⟩
  · intro s hp
    simp [renderLine, hp]
  · intro s hp hlen
    have hie : ((splitSegs s).drop root.length).isEmpty = true := by
      simp [List.isEmpty_iff, List.drop_eq_nil_iff, hlen]
    simp [renderLine, hp, hie]
  · intro created hok
    have h1 : ∀ t ∈ sortStrings created, ∃ y, renderLine root t = Except.ok y := by
      intro t ht
      have htc : t ∈ created := by
        have : t ∈ List.mergeSort created strLe ↔ t ∈ created := List.mem_mergeSort
        exact this.mp (by simpa [sortStrings] using ht)
      rcases hcase : root.isPrefixOf (splitSegs t) with hfalse | htrue
      · exact ⟨"- " ++ t, by simp [renderLine, hcase]⟩
      · have hle : root.length ≤ (splitSegs t).length := by
          have : root <+: splitSegs t := by
            simpa using List.isPrefixOf_iff_prefix.mp hcase
          exact this.length_le
        rcases Nat.lt_or_ge root.length (splitSegs t).length with hlt | hge
        · exact ⟨_, harm t hcase hlt⟩
        · exact absurd ⟨hcase, Nat.le_antisymm (by omega) hle⟩ (hok t htc)
    obtain ⟨lines, hl, hlen⟩ := renderLines_ok root (sortStrings created) h1
    refine ⟨lines, ?_, ?_⟩
    · simpa [buildTreeLines] using hl
    · rw [hlen]
      simp [sortStrings]

/-- C7 witness: the amended rendering contract evaluated concretely — a path
below the root, a path outside the root, and a one-line-per-path report. -/
theorem c7_report_rendering_witness :
    ((["R"] : FsPath).isPrefixOf (splitSegs "/S/x") = false →
        renderLine ["R"] "/S/x" = .ok ("- " ++ "/S/x"))
    ∧ (∀ t ∈ ["/R/a", "/R/a/b", "/S/x"],
        ¬((["R"] : FsPath).isPrefixOf (splitSegs t) = true
            ∧ (splitSegs t).length = (["R"] : FsPath).length))
    ∧ (∃ lines, buildTreeLines ["R"] ["/R/a", "/R/a/b", "/S/x"] = .ok lines
        ∧ lines.length = 3) :=
  ⟨(c7_report_rendering ["R"]).1 "/S/x",
   by decide,
   (c7_report_rendering ["R"]).2.2.2 ["/R/a", "/R/a/b", "/S/x"] (by decide)⟩

/-- C5: on a run in which no exception escapes the walk and the report
builds, `generate` returns exactly the recorded `created_dirs` as a
sequence sorted by the lexicographic (code-point) string order, containing
the same strings as the record. -/
theorem c5_generate_sorted (env : FsPath → Bool) (root : FsPath) (tree : Yaml)
    (dirs0 : List FsPath) (fs : FSState)
    (h : processNode env tree root ⟨dirs0, [], []⟩ = (fs, none))
    (lines : List String) (hr : buildTreeLines root fs.created = .ok lines) :
    (generate env root tree dirs0).2 = .ok (sortStrings fs.created)
    ∧ (sortStrings fs.created).Pairwise (fun a b => strLe a b = true)
    ∧ (∀ s, s ∈ sortStrings fs.created ↔ s ∈ fs.created) := by
  refine ⟨?_, ?_, ?_⟩
  · simp [generate, h, hr]
  · have hs : (List.mergeSort fs.created strLe).Pairwise
        (fun a b => strLe a b = true) := by
      have hp := List.sorted_mergeSort strLe_trans strLe_total fs.created
      simpa using hp
    simp only [sortStrings]
    exact hs
  · intro s
    have hm : s ∈ List.mergeSort fs.created strLe ↔ s ∈ fs.created :=
      List.mem_mergeSort
    simp only [sortStrings]
    exact hm

unseal List.merge List.mergeSort in
/-- C5 witness: the driver contract evaluated on a concrete one-entry tree. -/
theorem c5_generate_sorted_witness :
    (generate (fun _ => false) ["R"] (Yaml.ymap [(Yaml.ystr "a", Yaml.ynull)]) []).2
        = .ok (sortStrings ["/R/a"])
    ∧ (sortStrings ["/R/a"]).Pairwise (fun a b => strLe a b = true)
    ∧ (∀ s, s ∈ sortStrings ["/R/a"] ↔ s ∈ ["/R/a"]) :=
  c5_generate_sorted (fun _ => false) ["R"] (Yaml.ymap [(Yaml.ystr "a", Yaml.ynull)])
    [] ⟨[["R"], ["R", "a"]], ["/R/a"], [["R", "a"]]⟩ (by decide)
    ["- a"] rfl

/-! ### Two-run analysis: preliminaries

`Hereditary env` is the determinism assumption about the modelled
filesystem: when `mkdir -p` raises for a target, it also raises for every
deeper target (it would have to create the failing directory on the way).
Under it a second run over an unchanged tree reproduces the first run. -/

def Hereditary (env : FsPath → Bool) : Prop :=
  ∀ p q : FsPath, p <+: q → env p = true → env q = true

theorem processMap_cons_ok_err (env : FsPath → Bool) (k child : Yaml)
    (rest : List (Yaml × Yaml)) (cur : FsPath) (fs fs2 : FSState)
    (name : String) (e : String) (hk : strip k = .ok name)
    (hr : (createDir env fs (pathJoin cur name)).1 = true)
    (hchild : processNode env child (pathJoin cur name)
        (createDir env fs (pathJoin cur name)).2 = (fs2, some e)) :
    processMap env ((k, child) :: rest) cur fs = (fs2, some e) := by
  rw [processMap_cons env k child rest cur fs name hk, if_pos hr, hchild]

theorem processMap_cons_ok_ok (env : FsPath → Bool) (k child : Yaml)
    (rest : List (Yaml × Yaml)) (cur : FsPath) (fs fs2 : FSState)
    (name : String) (hk : strip k = .ok name)
    (hr : (createDir env fs (pathJoin cur name)).1 = true)
    (hchild : processNode env child (pathJoin cur name)
        (createDir env fs (pathJoin cur name)).2 = (fs2, none)) :
    processMap env ((k, child) :: rest) cur fs = processMap env rest cur fs2 := by
  rw [processMap_cons env k child rest cur fs name hk, if_pos hr, hchild]

theorem processMap_cons_failed (env : FsPath → Bool) (k child : Yaml)
    (rest : List (Yaml × Yaml)) (cur : FsPath) (fs : FSState)
    (name : String) (hk : strip k = .ok name)
    (hr : ¬(createDir env fs (pathJoin cur name)).1 = true) :
    processMap env ((k, child) :: rest) cur fs
      = processMap env rest cur (createDir env fs (pathJoin cur name)).2 := by
  rw [processMap_cons env k child rest cur fs name hk, if_neg hr]

theorem list_dirs_mono (env : FsPath → Bool) :
    ∀ (its : List Yaml) (cur : FsPath) (fs : FSState),
      ∀ q ∈ fs.dirs, q ∈ (processList env its cur fs).1.dirs := by
  intro its
  induction its with
  | nil => intro cur fs q hq; simpa [processList] using hq
  | cons item rest ih =>
    intro cur fs q hq
    cases hs : strip item with
    | error e =>
      rw [processList_cons_err env item rest cur fs e hs]
      exact hq
    | ok name =>
      rw [processList_cons env item rest cur fs name hs]
      exact ih cur _ q (createDir_dirs_mono env fs _ q hq)

theorem map_dirs_mono (env : FsPath → Bool) :
    ∀ (es : List (Yaml × Yaml)) (cur : FsPath) (fs : FSState),
      ∀ q ∈ fs.dirs, q ∈ (processMap env es cur fs).1.dirs := by
  refine processMap.induct env
    (fun t cur fs => ∀ q ∈ fs.dirs, q ∈ (processNode env t cur fs).1.dirs)
    (fun es cur fs => ∀ q ∈ fs.dirs, q ∈ (processMap env es cur fs).1.dirs)
    ?_ ?_ ?_ ?_ ?_ ?_ ?_ ?_ ?_ ?_ ?_
  · intro entries cur fs ih q hq
    simpa [processNode] using ih q hq
  · intro items cur fs q hq
    simpa [processNode] using list_dirs_mono env items cur fs q hq
  · intro cur fs q hq; simpa [processNode] using hq
  · intro s cur fs q hq; simpa [processNode] using hq
  · intro n cur fs q hq; simpa [processNode] using hq
  · intro b cur fs q hq; simpa [processNode] using hq
  · intro cur fs q hq; simpa [processMap] using hq
  · intro k child rest cur fs e hk q hq
    rw [processMap_cons_err env k child rest cur fs e hk]
    exact hq
  · intro k child rest cur fs name hk np r hr fs2 e hchild ih1 q hq
    rw [processMap_cons_ok_err env k child rest cur fs fs2 name e hk hr hchild]
    have h1 := ih1 q (createDir_dirs_mono env fs _ q hq)
    rw [hchild] at h1
    exact h1
  · intro k child rest cur fs name hk np r hr fs2 hchild ih1 ih2 q hq
    rw [processMap_cons_ok_ok env k child rest cur fs fs2 name hk hr hchild]
    have h1 := ih1 q (createDir_dirs_mono env fs _ q hq)
    rw [hchild] at h1
    exact ih2 q h1
  · intro k child rest cur fs name hk np r hr ih2 q hq
    rw [processMap_cons_failed env k child rest cur fs name hk hr]
    exact ih2 q (createDir_dirs_mono env fs _ q hq)

theorem node_dirs_mono (env : FsPath → Bool) (t : Yaml) (cur : FsPath) (fs : FSState) :
    ∀ q ∈ fs.dirs, q ∈ (processNode env t cur fs).1.dirs := by
  cases t with
  | ymap es => intro q hq; simpa [processNode] using map_dirs_mono env es cur fs q hq
  | ylist its => intro q hq; simpa [processNode] using list_dirs_mono env its cur fs q hq
  | ystr s => intro q hq; simpa [processNode] using hq
  | yint n => intro q hq; simpa [processNode] using hq
  | ybool b => intro q hq; simpa [processNode] using hq
  | ynull => intro q hq; simpa [processNode] using hq

theorem mem_prefixesOf_ancestor (p q : FsPath) (h : q ∈ prefixesOf p) : q <+: p := by
  unfold prefixesOf at h
  obtain ⟨i, _, rfl⟩ := List.mem_map.mp h
  exact List.take_prefix _ _

theorem self_mem_prefixesOf (p : FsPath) (h : p ≠ []) : p ∈ prefixesOf p := by
  unfold prefixesOf
  refine List.mem_map.mpr ⟨p.length - 1, ?_, ?_⟩
  · have : 0 < p.length := List.length_pos.mpr h
    exact List.mem_range.mpr (by omega)
  · have : 0 < p.length := List.length_pos.mpr h
    have h1 : p.length - 1 + 1 = p.length := by omega
    rw [h1, List.take_length]

theorem createDir_envfalse (env : FsPath → Bool) (henv : Hereditary env)
    (fs : FSState) (p q : FsPath) (h : q ∈ (createDir env fs p).2.dirs) :
    q ∈ fs.dirs ∨ env q = false := by
  by_cases hc : resolveSegs p = [] ∨ resolveSegs p ∈ fs.dirs
  · rw [createDir_exist env fs p hc] at h
    exact Or.inl h
  · push_neg at hc
    obtain ⟨h1, h2⟩ := hc
    cases h3 : env (resolveSegs p) with
    | true =>
      rw [createDir_fail env fs p h1 h2 h3] at h
      exact Or.inl h
    | false =>
      rw [createDir_new env fs p h1 h2 h3] at h
      simp only [mem_addDirAll] at h
      rcases h with h | h
      · exact Or.inl h
      · cases h4 : env q with
        | false => exact Or.inr rfl
        | true =>
          have := henv q (resolveSegs p) (mem_prefixesOf_ancestor _ _ h) h4
          rw [h3] at this
          cases this

theorem list_envfalse (env : FsPath → Bool) (henv : Hereditary env) :
    ∀ (its : List Yaml) (cur : FsPath) (fs : FSState),
      ∀ q ∈ (processList env its cur fs).1.dirs, q ∈ fs.dirs ∨ env q = false := by
  intro its
  induction its with
  | nil => intro cur fs q hq; simpa [processList] using Or.inl hq
  | cons item rest ih =>
    intro cur fs q hq
    cases hs : strip item with
    | error e =>
      rw [processList_cons_err env item rest cur fs e hs] at hq
      exact Or.inl hq
    | ok name =>
      rw [processList_cons env item rest cur fs name hs] at hq
      rcases ih cur _ q hq with h | h
      · exact createDir_envfalse env henv fs _ q h
      · exact Or.inr h

theorem map_envfalse (env : FsPath → Bool) (henv : Hereditary env) :
    ∀ (es : List (Yaml × Yaml)) (cur : FsPath) (fs : FSState),
      ∀ q ∈ (processMap env es cur fs).1.dirs, q ∈ fs.dirs ∨ env q = false := by
  refine processMap.induct env
    (fun t cur fs =>
      ∀ q ∈ (processNode env t cur fs).1.dirs, q ∈ fs.dirs ∨ env q = false)
    (fun es cur fs =>
      ∀ q ∈ (processMap env es cur fs).1.dirs, q ∈ fs.dirs ∨ env q = false)
    ?_ ?_ ?_ ?_ ?_ ?_ ?_ ?_ ?_ ?_ ?_
  · intro entries cur fs ih q hq
    exact ih q (by simpa [processNode] using hq)
  · intro items cur fs q hq
    exact list_envfalse env henv items cur fs q (by simpa [processNode] using hq)
  · intro cur fs q hq; exact Or.inl (by simpa [processNode] using hq)
  · intro s cur fs q hq; exact Or.inl (by simpa [processNode] using hq)
  · intro n cur fs q hq; exact Or.inl (by simpa [processNode] using hq)
  · intro b cur fs q hq; exact Or.inl (by simpa [processNode] using hq)
  · intro cur fs q hq; exact Or.inl (by simpa [processMap] using hq)
  · intro k child rest cur fs e hk q hq
    rw [processMap_cons_err env k child rest cur fs e hk] at hq
    exact Or.inl hq
  · intro k child rest cur fs name hk np r hr fs2 e hchild ih1 q hq
    rw [processMap_cons_ok_err env k child rest cur fs fs2 name e hk hr hchild] at hq
    have h1 := ih1 q (by rw [hchild]; exact hq)
    rcases h1 with h | h
    · exact createDir_envfalse env henv fs _ q h
    · exact Or.inr h
  · intro k child rest cur fs name hk np r hr fs2 hchild ih1 ih2 q hq
    rw [processMap_cons_ok_ok env k child rest cur fs fs2 name hk hr hchild] at hq
    rcases ih2 q hq with h | h
    · rcases ih1 q (by rw [hchild]; exact h) with h2 | h2
      · exact createDir_envfalse env henv fs _ q h2
      · exact Or.inr h2
    · exact Or.inr h
  · intro k child rest cur fs name hk np r hr ih2 q hq
    rw [processMap_cons_failed env k child rest cur fs name hk hr] at hq
    rcases ih2 q hq with h | h
    · exact createDir_envfalse env henv fs _ q h
    · exact Or.inr h

theorem node_envfalse (env : FsPath → Bool) (henv : Hereditary env)
    (t : Yaml) (cur : FsPath) (fs : FSState) :
    ∀ q ∈ (processNode env t cur fs).1.dirs, q ∈ fs.dirs ∨ env q = false := by
  cases t with
  | ymap es =>
    intro q hq
    exact map_envfalse env henv es cur fs q (by simpa [processNode] using hq)
  | ylist its =>
    intro q hq
    exact list_envfalse env henv its cur fs q (by simpa [processNode] using hq)
  | ystr s => intro q hq; exact Or.inl (by simpa [processNode] using hq)
  | yint n => intro q hq; exact Or.inl (by simpa [processNode] using hq)
  | ybool b => intro q hq; exact Or.inl (by simpa [processNode] using hq)
  | ynull => intro q hq; exact Or.inl (by simpa [processNode] using hq)

theorem createDir_success_target_mem (env : FsPath → Bool) (fs : FSState) (p : FsPath)
    (h : (createDir env fs p).1 = true) :
    resolveSegs p = [] ∨ resolveSegs p ∈ (createDir env fs p).2.dirs := by
  by_cases hc : resolveSegs p = [] ∨ resolveSegs p ∈ fs.dirs
  · rcases hc with hc | hc
    · exact Or.inl hc
    · rw [createDir_exist env fs p (Or.inr hc)]
      exact Or.inr hc
  · push_neg at hc
    obtain ⟨h1, h2⟩ := hc
    cases h3 : env (resolveSegs p) with
    | true =>
      rw [createDir_fail env fs p h1 h2 h3] at h
      simp at h
    | false =>
      rw [createDir_new env fs p h1 h2 h3]
      refine Or.inr ?_
      simp only [mem_addDirAll]
      exact Or.inr (self_mem_prefixesOf _ h1)

/-- Run-2 mirrors run-1 on one `_create_dir` call: starting from the final
directory set `E` of a completed prior run, the call returns the same
boolean as the prior run's call from the intermediate state `fs`, and the
directory set stays `E`. -/
theorem createDir_mirror (env : FsPath → Bool) (fs gs : FSState) (E : List FsPath)
    (p : FsPath)
    (hinv : ∀ x ∈ E, x ∈ fs.dirs ∨ env x = false)
    (hgs : gs.dirs = E) (hfsE : ∀ x ∈ fs.dirs, x ∈ E)
    (hrpE : (createDir env fs p).1 = true →
      resolveSegs p = [] ∨ resolveSegs p ∈ E) :
    (createDir env gs p).1 = (createDir env fs p).1
    ∧ (createDir env gs p).2.dirs = E := by
  by_cases hc : resolveSegs p = [] ∨ resolveSegs p ∈ fs.dirs
  · have h1 := createDir_exist env fs p hc
    have hcg : resolveSegs p = [] ∨ resolveSegs p ∈ gs.dirs := by
      rcases hc with h | h
      · exact Or.inl h
      · exact Or.inr (by rw [hgs]; exact hfsE _ h)
    have h2 := createDir_exist env gs p hcg
    rw [h1, h2]
    exact ⟨rfl, hgs⟩
  · push_neg at hc
    obtain ⟨hne, hnm⟩ := hc
    cases h3 : env (resolveSegs p) with
    | true =>
      have h1 := createDir_fail env fs p hne hnm h3
      have hnotE : resolveSegs p ∉ E := by
        intro hmem
        rcases hinv _ hmem with h | h
        · exact hnm h
        · rw [h3] at h; cases h
      have h2 := createDir_fail env gs p hne (by rw [hgs]; exact hnotE) h3
      rw [h1, h2]
      exact ⟨rfl, hgs⟩
    | false =>
      have h1 := createDir_new env fs p hne hnm h3
      have hsucc : (createDir env fs p).1 = true := by rw [h1]
      rcases hrpE hsucc with h | h
      · exact absurd h hne
      · have h2 := createDir_exist env gs p (Or.inr (by rw [hgs]; exact h))
        rw [h1, h2]
        exact ⟨rfl, hgs⟩

theorem list_sim (env : FsPath → Bool) :
    ∀ (its : List Yaml) (cur : FsPath) (fs gs : FSState) (E : List FsPath),
      gs.dirs = E →
      (∀ x ∈ E, x ∈ fs.dirs ∨ env x = false) →
      (∀ x ∈ fs.dirs, x ∈ E) →
      (∀ x ∈ (processList env its cur fs).1.dirs, x ∈ E) →
      (processList env its cur gs).1.dirs = E
      ∧ (processList env its cur gs).2 = (processList env its cur fs).2 := by
  intro its
  induction its with
  | nil =>
    intro cur fs gs E hgs hinv hfsE hres
    exact ⟨by simpa [processList] using hgs, by simp [processList]⟩
  | cons item rest ih =>
    intro cur fs gs E hgs hinv hfsE hres
    cases hs : strip item with
    | error e =>
      rw [processList_cons_err env item rest cur fs e hs,
          processList_cons_err env item rest cur gs e hs]
      exact ⟨hgs, rfl⟩
    | ok name =>
      rw [processList_cons env item rest cur fs name hs] at hres
      have hrpE : (createDir env fs (pathJoin cur name)).1 = true →
          resolveSegs (pathJoin cur name) = []
            ∨ resolveSegs (pathJoin cur name) ∈ E := by
        intro hsucc
        rcases createDir_success_target_mem env fs _ hsucc with h | h
        · exact Or.inl h
        · exact Or.inr (hres _ (list_dirs_mono env rest cur _ _ h))
      obtain ⟨hbeq, hgdirs⟩ :=
        createDir_mirror env fs gs E (pathJoin cur name) hinv hgs hfsE hrpE
      rw [processList_cons env item rest cur fs name hs,
          processList_cons env item rest cur gs name hs]
      refine ih cur _ _ E hgdirs ?_ ?_ hres
      · intro x hx
        rcases hinv x hx with h | h
        · exact Or.inl (createDir_dirs_mono env fs _ x h)
        · exact Or.inr h
      · intro x hx
        exact hres x (list_dirs_mono env rest cur _ x hx)



theorem map_sim (env : FsPath → Bool) :
    ∀ (es : List (Yaml × Yaml)) (cur : FsPath) (fs : FSState),
      ∀ (gs : FSState) (E : List FsPath),
      gs.dirs = E →
      (∀ x ∈ E, x ∈ fs.dirs ∨ env x = false) →
      (∀ x ∈ fs.dirs, x ∈ E) →
      (∀ x ∈ (processMap env es cur fs).1.dirs, x ∈ E) →
      (processMap env es cur gs).1.dirs = E
      ∧ (processMap env es cur gs).2 = (processMap env es cur fs).2 := by
  refine processMap.induct env
    (fun t cur fs => ∀ (gs : FSState) (E : List FsPath),
      gs.dirs = E →
      (∀ x ∈ E, x ∈ fs.dirs ∨ env x = false) →
      (∀ x ∈ fs.dirs, x ∈ E) →
      (∀ x ∈ (processNode env t cur fs).1.dirs, x ∈ E) →
      (processNode env t cur gs).1.dirs = E
      ∧ (processNode env t cur gs).2 = (processNode env t cur fs).2)
    (fun es cur fs => ∀ (gs : FSState) (E : List FsPath),
      gs.dirs = E →
      (∀ x ∈ E, x ∈ fs.dirs ∨ env x = false) →
      (∀ x ∈ fs.dirs, x ∈ E) →
      (∀ x ∈ (processMap env es cur fs).1.dirs, x ∈ E) →
      (processMap env es cur gs).1.dirs = E
      ∧ (processMap env es cur gs).2 = (processMap env es cur fs).2)
    ?_ ?_ ?_ ?_ ?_ ?_ ?_ ?_ ?_ ?_ ?_
  · intro entries cur fs ih gs E hgs hinv hfsE hres
    simp only [processNode] at hres ⊢
    exact ih gs E hgs hinv hfsE hres
  · intro items cur fs gs E hgs hinv hfsE hres
    simp only [processNode] at hres ⊢
    exact list_sim env items cur fs gs E hgs hinv hfsE hres
  · intro cur fs gs E hgs hinv hfsE hres
    exact ⟨by simpa [processNode] using hgs, by simp [processNode]⟩
  · intro s cur fs gs E hgs hinv hfsE hres
    exact ⟨by simpa [processNode] using hgs, by simp [processNode]⟩
  · intro n cur fs gs E hgs hinv hfsE hres
    exact ⟨by simpa [processNode] using hgs, by simp [processNode]⟩
  · intro b cur fs gs E hgs hinv hfsE hres
    exact ⟨by simpa [processNode] using hgs, by simp [processNode]⟩
  · intro cur fs gs E hgs hinv hfsE hres
    exact ⟨by simpa [processMap] using hgs, by simp [processMap]⟩
  · intro k child rest cur fs e hk gs E hgs hinv hfsE hres
    rw [processMap_cons_err env k child rest cur fs e hk,
        processMap_cons_err env k child rest cur gs e hk]
    exact ⟨hgs, rfl⟩
  · -- success, child raises
    intro k child rest cur fs name hk np r hr fs2 e hchild ih1 gs E hgs hinv hfsE hres
    have hw1 := processMap_cons_ok_err env k child rest cur fs fs2 name e hk hr hchild
    rw [hw1] at hres
    have hchain : ∀ x ∈ (createDir env fs (pathJoin cur name)).2.dirs, x ∈ fs2.dirs := by
      intro x hx
      have h :=
        node_dirs_mono env child (pathJoin cur name)
          (createDir env fs (pathJoin cur name)).2 x hx
      rw [hchild] at h
      exact h
    have hrpE : (createDir env fs (pathJoin cur name)).1 = true →
        resolveSegs (pathJoin cur name) = []
          ∨ resolveSegs (pathJoin cur name) ∈ E := by
      intro hsucc
      rcases createDir_success_target_mem env fs _ hsucc with h | h
      · exact Or.inl h
      · exact Or.inr (hres _ (hchain _ h))
    obtain ⟨hbeq, hgdirs⟩ :=
      createDir_mirror env fs gs E (pathJoin cur name) hinv hgs hfsE hrpE
    have hgsucc : (createDir env gs (pathJoin cur name)).1 = true := by
      rw [hbeq]; exact hr
    have hinv2 : ∀ x ∈ E,
        x ∈ (createDir env fs (pathJoin cur name)).2.dirs ∨ env x = false := by
      intro x hx
      rcases hinv x hx with h | h
      · exact Or.inl (createDir_dirs_mono env fs _ x h)
      · exact Or.inr h
    have hfsE2 : ∀ x ∈ (createDir env fs (pathJoin cur name)).2.dirs, x ∈ E :=
      fun x hx => hres x (hchain x hx)
    have hresC : ∀ x ∈ (processNode env child (pathJoin cur name)
        (createDir env fs (pathJoin cur name)).2).1.dirs, x ∈ E := by
      intro x hx
      rw [hchild] at hx
      exact hres x hx
    obtain ⟨hcd, hce⟩ :=
      ih1 (createDir env gs (pathJoin cur name)).2 E hgdirs hinv2 hfsE2 hresC
    have hce2 : (processNode env child (pathJoin cur name)
        (createDir env gs (pathJoin cur name)).2).2 = some e := by
      rw [hce, hchild]
    have hprod : processNode env child (pathJoin cur name)
        (createDir env gs (pathJoin cur name)).2
        = ((processNode env child (pathJoin cur name)
            (createDir env gs (pathJoin cur name)).2).1, some e) := by
      rw [← hce2]
    have hw2 := processMap_cons_ok_err env k child rest cur gs
        (processNode env child (pathJoin cur name)
          (createDir env gs (pathJoin cur name)).2).1
        name e hk hgsucc hprod
    rw [hw1, hw2]
    exact ⟨hcd, rfl⟩
  · -- success, child completes, continue with rest
    intro k child rest cur fs name hk np r hr fs2 hchild ih1 ih2 gs E hgs hinv hfsE hres
    have hw1 := processMap_cons_ok_ok env k child rest cur fs fs2 name hk hr hchild
    rw [hw1] at hres
    have hchain : ∀ x ∈ (createDir env fs (pathJoin cur name)).2.dirs, x ∈ fs2.dirs := by
      intro x hx
      have h :=
        node_dirs_mono env child (pathJoin cur name)
          (createDir env fs (pathJoin cur name)).2 x hx
      rw [hchild] at h
      exact h
    have hfs2E : ∀ x ∈ fs2.dirs, x ∈ E :=
      fun x hx => hres x (map_dirs_mono env rest cur fs2 x hx)
    have hrpE : (createDir env fs (pathJoin cur name)).1 = true →
        resolveSegs (pathJoin cur name) = []
          ∨ resolveSegs (pathJoin cur name) ∈ E := by
      intro hsucc
      rcases createDir_success_target_mem env fs _ hsucc with h | h
      · exact Or.inl h
      · exact Or.inr (hfs2E _ (hchain _ h))
    obtain ⟨hbeq, hgdirs⟩ :=
      createDir_mirror env fs gs E (pathJoin cur name) hinv hgs hfsE hrpE
    have hgsucc : (createDir env gs (pathJoin cur name)).1 = true := by
      rw [hbeq]; exact hr
    have hinv2 : ∀ x ∈ E,
        x ∈ (createDir env fs (pathJoin cur name)).2.dirs ∨ env x = false := by
      intro x hx
      rcases hinv x hx with h | h
      · exact Or.inl (createDir_dirs_mono env fs _ x h)
      · exact Or.inr h
    have hfsE2 : ∀ x ∈ (createDir env fs (pathJoin cur name)).2.dirs, x ∈ E :=
      fun x hx => hfs2E x (hchain x hx)
    have hresC : ∀ x ∈ (processNode env child (pathJoin cur name)
        (createDir env fs (pathJoin cur name)).2).1.dirs, x ∈ E := by
      intro x hx
      rw [hchild] at hx
      exact hfs2E x hx
    obtain ⟨hcd, hce⟩ :=
      ih1 (createDir env gs (pathJoin cur name)).2 E hgdirs hinv2 hfsE2 hresC
    have hce2 : (processNode env child (pathJoin cur name)
        (createDir env gs (pathJoin cur name)).2).2 = none := by
      rw [hce, hchild]
    have hprod : processNode env child (pathJoin cur name)
        (createDir env gs (pathJoin cur name)).2
        = ((processNode env child (pathJoin cur name)
            (createDir env gs (pathJoin cur name)).2).1, none) := by
      rw [← hce2]
    have hw2 := processMap_cons_ok_ok env k child rest cur gs
        (processNode env child (pathJoin cur name)
          (createDir env gs (pathJoin cur name)).2).1
        name hk hgsucc hprod
    have hinv3 : ∀ x ∈ E, x ∈ fs2.dirs ∨ env x = false := by
      intro x hx
      rcases hinv x hx with h | h
      · exact Or.inl (hchain x (createDir_dirs_mono env fs _ x h))
      · exact Or.inr h
    obtain ⟨hrd, hre⟩ :=
      ih2 (processNode env child (pathJoin cur name)
          (createDir env gs (pathJoin cur name)).2).1 E hcd hinv3 hfs2E hres
    rw [hw1, hw2]
    exact ⟨hrd, hre⟩
  · -- creation failed: sibling processing continues in both runs
    intro k child rest cur fs name hk np r hr ih2 gs E hgs hinv hfsE hres
    have hw1 := processMap_cons_failed env k child rest cur fs name hk hr
    rw [hw1] at hres
    have hrpE : (createDir env fs (pathJoin cur name)).1 = true →
        resolveSegs (pathJoin cur name) = []
          ∨ resolveSegs (pathJoin cur name) ∈ E :=
      fun hsucc => absurd hsucc hr
    obtain ⟨hbeq, hgdirs⟩ :=
      createDir_mirror env fs gs E (pathJoin cur name) hinv hgs hfsE hrpE
    have hgfail : ¬(createDir env gs (pathJoin cur name)).1 = true := by
      rw [hbeq]; exact hr
    have hw2 := processMap_cons_failed env k child rest cur gs name hk hgfail
    have hinv2 : ∀ x ∈ E,
        x ∈ (createDir env fs (pathJoin cur name)).2.dirs ∨ env x = false := by
      intro x hx
      rcases hinv x hx with h | h
      · exact Or.inl (createDir_dirs_mono env fs _ x h)
      · exact Or.inr h
    have hfsE2 : ∀ x ∈ (createDir env fs (pathJoin cur name)).2.dirs, x ∈ E :=
      fun x hx => hres x (map_dirs_mono env rest cur _ x hx)
    obtain ⟨hrd, hre⟩ :=
      ih2 (createDir env gs (pathJoin cur name)).2 E hgdirs hinv2 hfsE2 hres
    rw [hw1, hw2]
    exact ⟨hrd, hre⟩



theorem node_sim (env : FsPath → Bool) (t : Yaml) (cur : FsPath)
    (fs gs : FSState) (E : List FsPath)
    (hgs : gs.dirs = E)
    (hinv : ∀ x ∈ E, x ∈ fs.dirs ∨ env x = false)
    (hfsE : ∀ x ∈ fs.dirs, x ∈ E)
    (hres : ∀ x ∈ (processNode env t cur fs).1.dirs, x ∈ E) :
    (processNode env t cur gs).1.dirs = E
    ∧ (processNode env t cur gs).2 = (processNode env t cur fs).2 := by
  cases t with
  | ymap es =>
    simp only [processNode] at hres ⊢
    exact map_sim env es cur fs gs E hgs hinv hfsE hres
  | ylist its =>
    simp only [processNode] at hres ⊢
    exact list_sim env its cur fs gs E hgs hinv hfsE hres
  | ystr s => exact ⟨by simpa [processNode] using hgs, by simp [processNode]⟩
  | yint n => exact ⟨by simpa [processNode] using hgs, by simp [processNode]⟩
  | ybool b => exact ⟨by simpa [processNode] using hgs, by simp [processNode]⟩
  | ynull => exact ⟨by simpa [processNode] using hgs, by simp [processNode]⟩

theorem generate_fst (env : FsPath → Bool) (root : FsPath) (tree : Yaml)
    (dirs0 : List FsPath) :
    (generate env root tree dirs0).1
      = (processNode env tree root ⟨dirs0, [], []⟩).1 := by
  unfold generate
  rcases hpn : processNode env tree root ⟨dirs0, [], []⟩ with ⟨fs, e⟩
  cases e with
  | none =>
    cases hb : buildTreeLines root fs.created <;> simp [hb]
  | some err => simp

/-- C2: under the deterministic-filesystem assumption (`Hereditary`), a
second `generate` run over the same tree and root, starting from the
directories left by the first run, leaves the set of directories exactly
as the first run left it; and every `_create_dir` call whose (resolved)
target already exists succeeds without touching the filesystem. -/
theorem c2_idempotent (env : FsPath → Bool) (root : FsPath) (tree : Yaml)
    (dirs0 : List FsPath) (henv : Hereditary env) :
    (generate env root tree ((generate env root tree dirs0).1.dirs)).1.dirs
      = (generate env root tree dirs0).1.dirs
    ∧ ∀ (p : FsPath) (fs : FSState), resolveSegs p ∈ fs.dirs →
        (createDir env fs p).1 = true ∧ (createDir env fs p).2.dirs = fs.dirs := by
  constructor
  · rw [generate_fst env root tree dirs0,
        generate_fst env root tree ((processNode env tree root ⟨dirs0, [], []⟩).1.dirs)]
    exact (node_sim env tree root ⟨dirs0, [], []⟩
      ⟨(processNode env tree root ⟨dirs0, [], []⟩).1.dirs, [], []⟩
      ((processNode env tree root ⟨dirs0, [], []⟩).1.dirs)
      rfl
      (fun x hx => node_envfalse env henv tree root ⟨dirs0, [], []⟩ x hx)
      (fun x hx => node_dirs_mono env tree root ⟨dirs0, [], []⟩ x hx)
      (fun x hx => hx)).1
  · intro p fs h
    exact createDir_mem_dirs_succeeds env fs p h

/-- C2 witness: the two-run contract evaluated on a concrete tree, and a
concrete already-existing directory created successfully without change. -/
theorem c2_idempotent_witness :
    ((generate (fun _ => false) ["R"] (Yaml.ymap [(Yaml.ystr "a", Yaml.ynull)])
        ((generate (fun _ => false) ["R"] (Yaml.ymap [(Yaml.ystr "a", Yaml.ynull)])
          []).1.dirs)).1.dirs
      = (generate (fun _ => false) ["R"] (Yaml.ymap [(Yaml.ystr "a", Yaml.ynull)])
          []).1.dirs)
    ∧ ((createDir (fun _ => false) ⟨[["R"]], [], []⟩ ["R"]).1 = true
        ∧ (createDir (fun _ => false) ⟨[["R"]], [], []⟩ ["R"]).2.dirs = [["R"]]) :=
  ⟨(c2_idempotent (fun _ => false) ["R"] (Yaml.ymap [(Yaml.ystr "a", Yaml.ynull)]) []
      (fun p q h hc => hc)).1,
   (c2_idempotent (fun _ => false) ["R"] (Yaml.ymap [(Yaml.ystr "a", Yaml.ynull)]) []
      (fun p q h hc => hc)).2 ["R"] ⟨[["R"]], [], []⟩ (by decide)⟩

/-- A name that, as a path component, stays a single literal segment:
non-empty, not `.` or `..`, and without a separator. -/
def plainSeg (s : String) : Bool :=
  !(s == "") && !(s == ".") && !(s == "..") && !(s.data.contains '/')

/-- A Branch key or Leaf-list entry that is a string whose trimmed form is a
plain segment. -/
def plainKey (k : Yaml) : Bool :=
  match k with
  | .ystr s => plainSeg (pyStrip s)
  | _ => false

mutual

/-- Every directory name in the tree is a string trimming to a plain segment. -/
def plainNames : Yaml → Bool
  | .ymap es => plainMap es
  | .ylist its => plainList its
  | _ => true

def plainMap : List (Yaml × Yaml) → Bool
  | [] => true
  | (k, c) :: rest => plainKey k && plainNames c && plainMap rest

def plainList : List Yaml → Bool
  | [] => true
  | i :: rest => plainKey i && plainList rest

end

theorem splitSlash_no_slash : ∀ l : List Char, '/' ∉ l → splitSlash l = [l] := by
  intro l
  induction l with
  | nil => intro _; rfl
  | cons c cs ih =>
    intro h
    have hc : c ≠ '/' := fun hc => h (hc ▸ List.mem_cons_self c cs)
    have hcs : '/' ∉ cs := fun hm => h (List.mem_cons_of_mem c hm)
    rw [splitSlash, ih hcs, if_neg hc]



theorem length_pos_of_ne_empty (s : String) (h : s ≠ "") : 1 ≤ s.length := by
  have hd : s.data ≠ [] := by
    intro h0
    apply h
    have hs : s = ⟨s.data⟩ := rfl
    rw [hs, h0]
  have h1 : 0 < s.data.length := List.length_pos.mpr hd
  have h2 : s.length = s.data.length := rfl
  omega

theorem plainSeg_spec (s : String) (h : plainSeg s = true) :
    s ≠ "" ∧ s ≠ "." ∧ s ≠ ".." ∧ '/' ∉ s.data := by
  simp only [plainSeg, Bool.and_eq_true, Bool.not_eq_true', beq_eq_false_iff_ne,
    ne_eq] at h
  refine ⟨h.1.1.1, h.1.1.2, h.1.2, ?_⟩
  simpa using h.2

theorem splitSegs_plain (s : String) (h : plainSeg s = true) :
    splitSegs s = [s] := by
  obtain ⟨h1, h2, _, h4⟩ := plainSeg_spec s h
  unfold splitSegs
  rw [splitSlash_no_slash s.data h4]
  simp only [List.map_cons, List.map_nil, List.filter]
  have hmk : String.mk s.data = s := rfl
  rw [hmk]
  have hb : (!(s == "" || s == ".")) = true := by
    simp [h1, h2]
  simp [hb]

theorem startsWithSlash_plain (s : String) (h : plainSeg s = true) :
    startsWithSlash s = false := by
  obtain ⟨h1, _, _, h4⟩ := plainSeg_spec s h
  unfold startsWithSlash
  cases hd : s.data with
  | nil => rfl
  | cons c cs =>
    have : c ≠ '/' := by
      intro hc
      exact h4 (hd ▸ hc ▸ List.mem_cons_self c cs)
    simpa using this

theorem pathJoin_plain (p : FsPath) (s : String) (h : plainSeg s = true) :
    pathJoin p s = p ++ [s] := by
  rw [pathJoin, startsWithSlash_plain s h, splitSegs_plain s h]
  rfl

theorem foldl_resolve_no_dotdot : ∀ (p : FsPath) (acc : FsPath),
    (∀ s ∈ p, s ≠ "..") →
    p.foldl (fun acc seg => if seg = ".." then acc.dropLast else acc ++ [seg]) acc
      = acc ++ p := by
  intro p
  induction p with
  | nil => intro acc _; simp
  | cons s rest ih =>
    intro acc h
    have hs : s ≠ ".." := h s (List.mem_cons_self s rest)
    rw [List.foldl_cons, if_neg hs, ih (acc ++ [s]) (fun t ht => h t (List.mem_cons_of_mem s ht))]
    simp

theorem resolveSegs_no_dotdot (p : FsPath) (h : ∀ s ∈ p, s ≠ "..") :
    resolveSegs p = p := by
  unfold resolveSegs
  rw [foldl_resolve_no_dotdot p [] h]
  simp

theorem mem_insertStr_cases (l : List String) (s x : String)
    (h : x ∈ insertStr l s) : x ∈ l ∨ x = s := by
  unfold insertStr at h
  split at h
  · exact Or.inl h
  · rcases List.mem_append.mp h with h | h
    · exact Or.inl h
    · exact Or.inr (List.mem_singleton.mp h)

theorem createDir_created_cases (env : FsPath → Bool) (fs : FSState) (p : FsPath)
    (x : String) (h : x ∈ (createDir env fs p).2.created) :
    x ∈ fs.created ∨ x = pathStr (resolveSegs p) := by
  by_cases hc : resolveSegs p = [] ∨ resolveSegs p ∈ fs.dirs
  · rw [createDir_exist env fs p hc] at h
    exact mem_insertStr_cases _ _ _ h
  · push_neg at hc
    obtain ⟨h1, h2⟩ := hc
    cases h3 : env (resolveSegs p) with
    | true =>
      rw [createDir_fail env fs p h1 h2 h3] at h
      exact Or.inl h
    | false =>
      rw [createDir_new env fs p h1 h2 h3] at h
      exact mem_insertStr_cases _ _ _ h

theorem joinSlash_cons₂ (x : String) (t : FsPath) (h : t ≠ []) :
    joinSlash (x :: t) = x ++ "/" ++ joinSlash t := by
  cases t with
  | nil => exact absurd rfl h
  | cons a as => rfl

theorem length_joinSlash_head (s : String) (rest : FsPath) :
    s.length ≤ (joinSlash (s :: rest)).length := by
  cases rest with
  | nil => simp [joinSlash]
  | cons a as =>
    rw [joinSlash_cons₂ s (a :: as) (by simp)]
    simp [String.length_append]
    omega

theorem joinSlash_length_lt : ∀ (root l : FsPath), l ≠ [] → (∀ s ∈ l, s ≠ "") →
    (joinSlash root).length < (joinSlash (root ++ l)).length := by
  intro root
  induction root with
  | nil =>
    intro l hne hnem
    cases l with
    | nil => exact absurd rfl hne
    | cons s rest =>
      have hs : s ≠ "" := hnem s (List.mem_cons_self s rest)
      have hlen : 1 ≤ s.length := length_pos_of_ne_empty s hs
      have hub := length_joinSlash_head s rest
      have h0 : (joinSlash ([] : FsPath)).length = 0 := rfl
      simp only [List.nil_append]
      omega
  | cons r0 root' ih =>
    intro l hne hnem
    cases hroot' : root' with
    | nil =>
      subst hroot'
      rw [List.cons_append, List.nil_append,
        joinSlash_cons₂ r0 l hne]
      cases l with
      | nil => exact absurd rfl hne
      | cons s rest =>
        have hs : s ≠ "" := hnem s (List.mem_cons_self s rest)
        have hlen : 1 ≤ s.length := length_pos_of_ne_empty s hs
        have hub := length_joinSlash_head s rest
        have h0 : joinSlash [r0] = r0 := rfl
        rw [h0]
        simp only [String.length_append]
        omega
    | cons a as =>
      rw [List.cons_append,
        joinSlash_cons₂ r0 ((a :: as) ++ l) (by simp),
        joinSlash_cons₂ r0 (a :: as) (by simp)]
      have := ih l hne hnem
      rw [hroot'] at this
      simp only [String.length_append]
      omega

theorem pathStr_ne_extension (root l : FsPath) (hne : l ≠ [])
    (hnem : ∀ s ∈ l, s ≠ "") : pathStr (root ++ l) ≠ pathStr root := by
  intro heq
  have := congrArg String.length heq
  simp only [pathStr, String.length_append] at this
  have hlt := joinSlash_length_lt root l hne hnem
  omega



/-- The form the claim asserts for recorded paths: the root extended by one
or more plain segments. -/
def ExtForm (root : FsPath) (x : String) : Prop :=
  ∃ l : FsPath, l ≠ [] ∧ (∀ s ∈ l, plainSeg s = true) ∧ x = pathStr (root ++ l)

theorem plainKey_spec (k : Yaml) (h : plainKey k = true) :
    ∃ s, k = Yaml.ystr s ∧ plainSeg (pyStrip s) = true := by
  cases k with
  | ystr s => exact ⟨s, rfl, h⟩
  | yint n => simp [plainKey] at h
  | ybool b => simp [plainKey] at h
  | ymap es => simp [plainKey] at h
  | ylist its => simp [plainKey] at h
  | ynull => simp [plainKey] at h

theorem strip_plain (k : Yaml) (name : String) (hp : plainKey k = true)
    (hk : strip k = .ok name) : plainSeg name = true := by
  obtain ⟨s, rfl, hps⟩ := plainKey_spec k hp
  simp only [strip, Except.ok.injEq] at hk
  rw [← hk]
  exact hps

theorem created_step (env : FsPath → Bool) (root : FsPath)
    (hroot : ∀ s ∈ root, plainSeg s = true)
    (pre : FsPath) (name : String) (fs : FSState) (x : String)
    (hpre : ∀ s ∈ pre, plainSeg s = true) (hname : plainSeg name = true)
    (h : x ∈ (createDir env fs (pathJoin (root ++ pre) name)).2.created) :
    x ∈ fs.created ∨ ExtForm root x := by
  rcases createDir_created_cases env fs _ x h with h1 | h1
  · exact Or.inl h1
  · right
    rw [pathJoin_plain _ name hname] at h1
    have hres : resolveSegs ((root ++ pre) ++ [name]) = (root ++ pre) ++ [name] := by
      apply resolveSegs_no_dotdot
      intro t ht
      rcases List.mem_append.mp ht with ht | ht
      · rcases List.mem_append.mp ht with ht | ht
        · exact (plainSeg_spec t (hroot t ht)).2.2.1
        · exact (plainSeg_spec t (hpre t ht)).2.2.1
      · rw [List.mem_singleton.mp ht]
        exact (plainSeg_spec name hname).2.2.1
    rw [hres] at h1
    refine ⟨pre ++ [name], by simp, ?_, ?_⟩
    · intro t ht
      rcases List.mem_append.mp ht with ht | ht
      · exact hpre t ht
      · rw [List.mem_singleton.mp ht]
        exact hname
    · rw [h1, List.append_assoc]

theorem list_created_plain (env : FsPath → Bool) (root : FsPath)
    (hroot : ∀ s ∈ root, plainSeg s = true) :
    ∀ (its : List Yaml) (pre : FsPath) (fs : FSState),
      (∀ s ∈ pre, plainSeg s = true) → plainList its = true →
      ∀ x ∈ (processList env its (root ++ pre) fs).1.created,
        x ∈ fs.created ∨ ExtForm root x := by
  intro its
  induction its with
  | nil =>
    intro pre fs _ _ x hx
    exact Or.inl (by simpa [processList] using hx)
  | cons item rest ih =>
    intro pre fs hpre hpl x hx
    rw [plainList] at hpl
    simp only [Bool.and_eq_true] at hpl
    obtain ⟨s, rfl, hps⟩ := plainKey_spec item hpl.1
    rw [processList_cons env (Yaml.ystr s) rest (root ++ pre) fs (pyStrip s) rfl] at hx
    rcases ih pre _ hpre hpl.2 x hx with h | h
    · exact created_step env root hroot pre (pyStrip s) fs x hpre hps h
    · exact Or.inr h

theorem map_created_plain (env : FsPath → Bool) (root : FsPath)
    (hroot : ∀ s ∈ root, plainSeg s = true) :
    ∀ (es : List (Yaml × Yaml)) (cur : FsPath) (fs : FSState),
      ∀ pre : FsPath, cur = root ++ pre →
      (∀ s ∈ pre, plainSeg s = true) → plainMap es = true →
      ∀ x ∈ (processMap env es cur fs).1.created,
        x ∈ fs.created ∨ ExtForm root x := by
  refine processMap.induct env
    (fun t cur fs => ∀ pre : FsPath, cur = root ++ pre →
      (∀ s ∈ pre, plainSeg s = true) → plainNames t = true →
      ∀ x ∈ (processNode env t cur fs).1.created,
        x ∈ fs.created ∨ ExtForm root x)
    (fun es cur fs => ∀ pre : FsPath, cur = root ++ pre →
      (∀ s ∈ pre, plainSeg s = true) → plainMap es = true →
      ∀ x ∈ (processMap env es cur fs).1.created,
        x ∈ fs.created ∨ ExtForm root x)
    ?_ ?_ ?_ ?_ ?_ ?_ ?_ ?_ ?_ ?_ ?_
  · intro entries cur fs ih pre hcur hpre hpn x hx
    exact ih pre hcur hpre (by simpa [plainNames] using hpn)
      x (by simpa [processNode] using hx)
  · intro items cur fs pre hcur hpre hpn x hx
    subst hcur
    exact list_created_plain env root hroot items pre fs hpre
      (by simpa [plainNames] using hpn) x (by simpa [processNode] using hx)
  · intro cur fs pre _ _ _ x hx
    exact Or.inl (by simpa [processNode] using hx)
  · intro s cur fs pre _ _ _ x hx
    exact Or.inl (by simpa [processNode] using hx)
  · intro n cur fs pre _ _ _ x hx
    exact Or.inl (by simpa [processNode] using hx)
  · intro b cur fs pre _ _ _ x hx
    exact Or.inl (by simpa [processNode] using hx)
  · intro cur fs pre _ _ _ x hx
    exact Or.inl (by simpa [processMap] using hx)
  · intro k child rest cur fs e hk pre hcur hpre hpm x hx
    rw [processMap_cons_err env k child rest cur fs e hk] at hx
    exact Or.inl hx
  · -- success, child raises
    intro k child rest cur fs name hk np r hr fs2 e hchild ih1 pre hcur hpre hpm x hx
    rw [plainMap] at hpm
    simp only [Bool.and_eq_true] at hpm
    have hname : plainSeg name = true := strip_plain k name hpm.1.1 hk
    rw [processMap_cons_ok_err env k child rest cur fs fs2 name e hk hr hchild] at hx
    have hnp : pathJoin cur name = root ++ (pre ++ [name]) := by
      rw [hcur, pathJoin_plain _ name hname, List.append_assoc]
    have hpre2 : ∀ s ∈ pre ++ [name], plainSeg s = true := by
      intro t ht
      rcases List.mem_append.mp ht with ht | ht
      · exact hpre t ht
      · rw [List.mem_singleton.mp ht]; exact hname
    have hx2 : x ∈ (processNode env child (pathJoin cur name)
        (createDir env fs (pathJoin cur name)).2).1.created := by
      rw [hchild]; exact hx
    rcases ih1 (pre ++ [name]) hnp hpre2 hpm.1.2 x hx2 with h | h
    · rcases created_step env root hroot pre name fs x hpre hname
        (by rw [← hcur] at *; exact h) with h2 | h2
      · exact Or.inl h2
      · exact Or.inr h2
    · exact Or.inr h
  · -- success, child completes, continue with rest
    intro k child rest cur fs name hk np r hr fs2 hchild ih1 ih2 pre hcur hpre hpm x hx
    rw [plainMap] at hpm
    simp only [Bool.and_eq_true] at hpm
    have hname : plainSeg name = true := strip_plain k name hpm.1.1 hk
    rw [processMap_cons_ok_ok env k child rest cur fs fs2 name hk hr hchild] at hx
    have hnp : pathJoin cur name = root ++ (pre ++ [name]) := by
      rw [hcur, pathJoin_plain _ name hname, List.append_assoc]
    have hpre2 : ∀ s ∈ pre ++ [name], plainSeg s = true := by
      intro t ht
      rcases List.mem_append.mp ht with ht | ht
      · exact hpre t ht
      · rw [List.mem_singleton.mp ht]; exact hname
    rcases ih2 pre hcur hpre hpm.2 x hx with h | h
    · have hx2 : x ∈ (processNode env child (pathJoin cur name)
          (createDir env fs (pathJoin cur name)).2).1.created := by
        rw [hchild]; exact h
      rcases ih1 (pre ++ [name]) hnp hpre2 hpm.1.2 x hx2 with h2 | h2
      · rcases created_step env root hroot pre name fs x hpre hname
          (by rw [← hcur] at *; exact h2) with h3 | h3
        · exact Or.inl h3
        · exact Or.inr h3
      · exact Or.inr h2
    · exact Or.inr h
  · -- creation failed
    intro k child rest cur fs name hk np r hr ih2 pre hcur hpre hpm x hx
    rw [plainMap] at hpm
    simp only [Bool.and_eq_true] at hpm
    have hname : plainSeg name = true := strip_plain k name hpm.1.1 hk
    rw [processMap_cons_failed env k child rest cur fs name hk hr] at hx
    rcases ih2 pre hcur hpre hpm.2 x hx with h | h
    · rcases created_step env root hroot pre name fs x hpre hname
        (by rw [← hcur] at *; exact h) with h2 | h2
      · exact Or.inl h2
      · exact Or.inr h2
    · exact Or.inr h

theorem node_created_plain (env : FsPath → Bool) (root : FsPath)
    (hroot : ∀ s ∈ root, plainSeg s = true) (t : Yaml) (fs : FSState)
    (hpn : plainNames t = true) :
    ∀ x ∈ (processNode env t root fs).1.created,
      x ∈ fs.created ∨ ExtForm root x := by
  intro x hx
  cases t with
  | ymap es =>
    exact map_created_plain env root hroot es root fs [] (by simp) (by simp)
      (by simpa [plainNames] using hpn) x (by simpa [processNode] using hx)
  | ylist its =>
    have := list_created_plain env root hroot its [] fs (by simp)
      (by simpa [plainNames] using hpn) x
    rw [List.append_nil] at this
    exact this (by simpa [processNode] using hx)
  | ystr s => exact Or.inl (by simpa [processNode] using hx)
  | yint n => exact Or.inl (by simpa [processNode] using hx)
  | ybool b => exact Or.inl (by simpa [processNode] using hx)
  | ynull => exact Or.inl (by simpa [processNode] using hx)



theorem generate_ok_mem (env : FsPath → Bool) (root : FsPath) (tree : Yaml)
    (dirs0 : List FsPath) (res : List String)
    (h : (generate env root tree dirs0).2 = .ok res) :
    ∀ x, x ∈ res ↔ x ∈ (processNode env tree root ⟨dirs0, [], []⟩).1.created := by
  unfold generate at h
  rcases hpn : processNode env tree root ⟨dirs0, [], []⟩ with ⟨fs, e⟩
  rw [hpn] at h
  cases e with
  | some err => simp at h
  | none =>
    dsimp only at h
    cases hb : buildTreeLines root fs.created with
    | error err => rw [hb] at h; simp at h
    | ok lines =>
      rw [hb] at h
      simp only [Except.ok.injEq] at h
      intro x
      rw [← h]
      have hm : x ∈ List.mergeSort fs.created strLe ↔ x ∈ fs.created :=
        List.mem_mergeSort
      simp only [sortStrings]
      exact hm

/-- C10 counterexample: the name `.` is non-empty after trimming (the
claim's hypothesis holds), yet `pathlib` drops `.` components, so
`currentPath / "."` is the root itself: the record receives the root's own
resolved string, not an extension of the root by one or more segments. -/
theorem c10_cex :
    pyStrip "." = "." ∧ ("." : String) ≠ ""
    ∧ (processNode (fun _ => false) (Yaml.ymap [(Yaml.ystr ".", Yaml.ynull)]) ["R"]
        ⟨[], [], []⟩).1.created = [pathStr ["R"]] := by decide

/-- C10 (amended): when every Branch key and Leaf-list entry of the tree is
a string whose trimmed name is a plain segment (non-empty, not `.` or `..`,
no separator), and the root's own parts are plain, every recorded path is
the root extended by one or more plain segments; consequently the root's
resolved string is never in the record, nor in a successfully returned
sequence. -/
theorem c10_plain_paths (env : FsPath → Bool) (root : FsPath) (tree : Yaml)
    (dirs0 : List FsPath)
    (hroot : ∀ s ∈ root, plainSeg s = true) (htree : plainNames tree = true) :
    (∀ x ∈ (generate env root tree dirs0).1.created, ExtForm root x)
    ∧ pathStr root ∉ (generate env root tree dirs0).1.created
    ∧ ∀ res, (generate env root tree dirs0).2 = Except.ok res →
        pathStr root ∉ res := by
  have hmain : ∀ x ∈ (generate env root tree dirs0).1.created, ExtForm root x := by
    intro x hx
    rw [generate_fst env root tree dirs0] at hx
    rcases node_created_plain env root hroot tree ⟨dirs0, [], []⟩ htree x hx with h | h
    · simp at h
    · exact h
  have hroot_not : ∀ x, ExtForm root x → x ≠ pathStr root := by
    intro x hext
    obtain ⟨l, hne, hpl, rfl⟩ := hext
    exact pathStr_ne_extension root l hne
      (fun s hs => (plainSeg_spec s (hpl s hs)).1)
  refine ⟨hmain, ?_, ?_⟩
  · intro hmem
    exact hroot_not _ (hmain _ hmem) rfl
  · intro res hres hmem
    have hx := (generate_ok_mem env root tree dirs0 res hres (pathStr root)).mp hmem
    have hx2 : pathStr root ∈ (generate env root tree dirs0).1.created := by
      rw [generate_fst env root tree dirs0]
      exact hx
    exact hroot_not _ (hmain _ hx2) rfl



/-- C10 witness: the plain-name contract evaluated on a concrete tree. -/
theorem c10_plain_paths_witness :
    (∀ s ∈ (["R"] : FsPath), plainSeg s = true)
    ∧ plainNames (Yaml.ymap [(Yaml.ystr "a", Yaml.ylist [Yaml.ystr "b"])]) = true
    ∧ pathStr ["R"] ∉ (generate (fun _ => false) ["R"]
        (Yaml.ymap [(Yaml.ystr "a", Yaml.ylist [Yaml.ystr "b"])]) []).1.created :=
  ⟨by decide, by decide,
   (c10_plain_paths (fun _ => false) ["R"]
      (Yaml.ymap [(Yaml.ystr "a", Yaml.ylist [Yaml.ystr "b"])]) []
      (by decide) (by decide)).2.1⟩

end DirGen
